import Mathlib

/-!
Verification of the Walkable-Route Sampler of `route_generator.py`.

The Python source computes with IEEE floats, `math.sin`/`cos`/`atan2`/`sqrt`
and Python's float `%`.  We embed coordinates in a linear ordered field `K`:
the purely arithmetical parts (ray casting, the wander loop, arc-length
resampling) are translated literally and are executable at `K = ℚ`/`ℤ`, while
the transcendental geometry (`haversine_distance`, `calculate_heading`) is
embedded over `ℝ` with `Real.sin`, `Real.cos`, `Real.sqrt` and `Complex.arg`
(the exact mathematical counterpart of `math.atan2`).  The wander loop and the
resampler take the distance and heading functions as parameters, exactly at
the call sites where the source calls `haversine_distance` and
`calculate_heading`; instantiating them with `haversineP`/`headingP` below
yields the source pipeline.
-/

set_option maxRecDepth 1000000

namespace NeighborhoodTour

/-- `RoutePoint` dataclass of `route_generator.py`: a point along the route
with position and viewing direction. -/
structure RoutePoint (K : Type) where
  lat : K
  lng : K
  heading : K
deriving DecidableEq

/-- A parsed Overpass way: `{"id": ..., "coords": ..., "tags": ...}`. -/
structure Way (K : Type) where
  id : ℕ
  coords : List (K × K)
  tags : List (String × String)
deriving DecidableEq

/-- An element of the Overpass JSON answer: a node carrying coordinates or a
way carrying a list of node ids (`get_walkable_streets`, lines 138-159). -/
inductive OsmElement (K : Type) where
  | node (id : ℕ) (lat : K) (lng : K)
  | way (id : ℕ) (nodeIds : List ℕ) (tags : List (String × String))
deriving DecidableEq

section Parsing

variable {K : Type}

/-- The `nodes` dict of `get_walkable_streets`: node ids mapped to their
coordinates; a later node element overwrites an earlier one with the same id,
as in a Python dict, hence the `reverse` before the first-match lookup. -/
def lookupNode (elems : List (OsmElement K)) (nid : ℕ) : Option (K × K) :=
  ((elems.filterMap fun e => match e with
    | OsmElement.node i la ln => some (i, (la, ln))
    | _ => none).reverse).lookup nid

/-- The parsing loop of `get_walkable_streets` (lines 144-159): each way
element resolves its node ids against the node dict, dropping unresolved ids,
and is kept only when at least 2 vertices were resolved. -/
def get_walkable_streets (elems : List (OsmElement K)) : List (Way K) :=
  elems.filterMap fun e => match e with
    | OsmElement.way i nids tags =>
      let coords := nids.filterMap (lookupNode elems)
      if 2 ≤ coords.length then some ⟨i, coords, tags⟩ else none
    | _ => none

end Parsing

section Geometry

variable {K : Type} [LinearOrderedField K]

/-- `point_in_polygon` (lines 72-97): ray casting; the fold state is the
`inside` flag, and vertex `i` is paired with vertex `j` (its predecessor,
where the first vertex is paired with the last one). -/
def point_in_polygon (lat lng : K) (polygon : List (K × K)) : Bool :=
  (polygon.zip (polygon.getLastD (0, 0) :: polygon)).foldl
    (fun inside pq =>
      let lat_i := pq.1.1
      let lng_i := pq.1.2
      let lat_j := pq.2.1
      let lng_j := pq.2.2
      if ((lng < lng_i) ≠ (lng < lng_j)) ∧
          (lat < (lat_j - lat_i) * (lng - lng_i) / (lng_j - lng_i) + lat_i)
      then !inside else inside)
    false

/-- `interpolate_point` (lines 191-195): linear interpolation in lat/lng. -/
def interpolate_point (lat1 lng1 lat2 lng2 fraction : K) : K × K :=
  (lat1 + (lat2 - lat1) * fraction, lng1 + (lng2 - lng1) * fraction)

end Geometry

section Walker

variable {K : Type} [LinearOrderedCommRing K]

/-- Sum of the distances between consecutive points of a polyline. -/
def pathSum (dist : K × K → K × K → K) : List (K × K) → K
  | [] => 0
  | [_] => 0
  | a :: b :: rest => dist a b + pathSum dist (b :: rest)

/-- The wander state of `generate_random_wander` (lines 269-273):
`path_coords`, `total_distance`, `visited_ways`, the current position, and the
index of the next pseudo-random draw. -/
structure WanderState (K : Type) where
  path : List (K × K)
  total : K
  visited : List ℕ
  cur : K × K
  n : ℕ
deriving DecidableEq

/-- Lines 269-273: the walk starts at the caller-supplied start point. -/
def initState (start : K × K) : WanderState K :=
  ⟨[start], 0, [], start, 0⟩

/-- Candidate triples `(dist, way, i)` contributed by one way (the inner
`enumerate` loops of lines 281-284 and 289-292). -/
def vertexCandidates (dist : K × K → K × K → K) (cur : K × K) (thr : K)
    (w : Way K) : List (K × Way K × ℕ) :=
  w.coords.enum.filterMap fun iv =>
    let d := dist cur iv.2
    if d < thr then some (d, w, iv.1) else none

/-- Lines 277-292: unvisited ways with a vertex within 200 m; if none, any
way (visited or not) with a vertex within 300 m. -/
def wanderCandidates (dist : K × K → K × K → K) (ways : List (Way K))
    (visited : List ℕ) (cur : K × K) : List (K × Way K × ℕ) :=
  let tier1 := (ways.filter fun w => !visited.contains w.id).flatMap
    (vertexCandidates dist cur 200)
  if tier1.isEmpty then ways.flatMap (vertexCandidates dist cur 300) else tier1

/-- The `for lat, lng in segment` loop (lines 312-320): append a vertex only
when it is more than 5 m from the current position, accumulate the distance,
and break out as soon as the accumulated distance reaches the target.  The
result is `(path_coords, total_distance, current position)`. -/
def stepPoints (dist : K × K → K × K → K) (target : K) :
    List (K × K) → List (K × K) → K → K × K → List (K × K) × K × (K × K)
  | [], path, total, cur => (path, total, cur)
  | v :: rest, path, total, cur =>
    let d := dist cur v
    let s := if 5 < d then (path ++ [v], total + d, v) else (path, total, cur)
    if target ≤ s.2.1 then s else stepPoints dist target rest s.1 s.2.1 s.2.2

/-- One iteration of the `while total_distance < target_distance` loop
(lines 275-322).  `none` models the `break` at line 296 (no candidates even
after relaxing to 300 m).  `rng` supplies the pseudo-random draws: draw
`st.n` selects among the 10 closest candidates (`random.choice`, line 301)
and draw `st.n + 1` selects the direction (line 307); the source sorts with
Python's stable `list.sort`, whose output `List.insertionSort` (also a stable
ascending sort) reproduces exactly. -/
def wanderStep (dist : K × K → K × K → K) (rng : ℕ → ℕ) (ways : List (Way K))
    (target : K) (st : WanderState K) : Option (WanderState K) :=
  let candidates := wanderCandidates dist ways st.visited st.cur
  if candidates.isEmpty then none
  else
    let sorted := List.insertionSort (fun a b => a.1 ≤ b.1) candidates
    let top := sorted.take 10
    let chosen := top.getD (rng st.n % top.length) (0, ⟨0, [], []⟩, 0)
    let w := chosen.2.1
    let start_idx := chosen.2.2
    let seg := if rng (st.n + 1) % 2 = 1 then w.coords.drop start_idx
      else (w.coords.take (start_idx + 1)).reverse
    let res := stepPoints dist target seg st.path st.total st.cur
    some ⟨res.1, res.2.1, st.visited ++ [w.id], res.2.2, st.n + 2⟩

/-- The full wander loop (lines 275-322), with explicit fuel: the source's
`while` loop need not terminate for adversarial random draws, so each theorem
quantifies over (or instantiates) the fuel. -/
def wanderLoop (dist : K × K → K × K → K) (rng : ℕ → ℕ) (ways : List (Way K))
    (target : K) : ℕ → WanderState K → WanderState K
  | 0, st => st
  | fuel + 1, st =>
    if st.total < target then
      match wanderStep dist rng ways target st with
      | none => st
      | some st' => wanderLoop dist rng ways target fuel st'
    else st

end Walker

section Sampler

/-- The `while next_sample_distance <= segment_end` loop of
`sample_route_points` (lines 363-374).  The running `next_sample_distance`
is always `k * interval` for the number `k` of finished loop bodies, so the
loop is driven by `k : ℕ`; each emitted point is tagged with its `k` (the
source keeps only the point).  Returns the emitted points and the final `k`.
-/
def sampleSeg {K : Type} [LinearOrderedField K] [FloorRing K]
    (hd : K × K → K × K → K) (I : K) (hI : 0 < I) (p1 p2 : K × K)
    (segStart segEnd L : K) (k : ℕ) : List (ℕ × RoutePoint K) × ℕ :=
  if h : (k : K) * I ≤ segEnd then
    let rest := sampleSeg hd I hI p1 p2 segStart segEnd L (k + 1)
    let emit :=
      if segStart ≤ (k : K) * I then
        let fraction := ((k : K) * I - segStart) / L
        let p := interpolate_point p1.1 p1.2 p2.1 p2.2 fraction
        [(k, ⟨p.1, p.2, hd p1 p2⟩)]
      else []
    (emit ++ rest.1, rest.2)
  else ([], k)
termination_by ⌊segEnd / I⌋₊ + 1 - k
decreasing_by
  have hk : (k : K) ≤ segEnd / I := by
    rw [le_div_iff₀ hI]; exact h
  have := Nat.le_floor hk
  omega

/-- The `for i in range(len(path_coords) - 1)` loop of `sample_route_points`
(lines 351-376), threading `accumulated_distance` and the sample counter `k`;
a segment shorter than 0.1 m is skipped without advancing either. -/
def sampleRun {K : Type} [LinearOrderedField K] [FloorRing K]
    (dist hd : K × K → K × K → K) (I : K) (hI : 0 < I) :
    List (K × K) → K → ℕ → List (ℕ × RoutePoint K)
  | [], _, _ => []
  | [_], _, _ => []
  | p1 :: p2 :: rest, acc, k =>
    let L := dist p1 p2
    if L < 1 / 10 then sampleRun dist hd I hI (p2 :: rest) acc k
    else
      let out := sampleSeg hd I hI p1 p2 acc (acc + L) L k
      out.1 ++ sampleRun dist hd I hI (p2 :: rest) (acc + L) out.2

/-- `sample_route_points` (lines 333-378).  For `interval ≤ 0` the source's
`while` loop never terminates; the embedding returns `[]` there and every
theorem about the resampler assumes `0 < interval`. -/
def sample_route_points {K : Type} [LinearOrderedField K] [FloorRing K]
    (dist hd : K × K → K × K → K)
    (path_coords : List (K × K)) (interval : K) : List (RoutePoint K) :=
  if path_coords.length < 2 then []
  else if hI : 0 < interval then
    (sampleRun dist hd interval hI path_coords 0 0).map Prod.snd
  else []

/-- The isochrone filter of `generate_random_wander` (lines 250-259): keep a
way when one of its vertices lies inside the polygon; if that keeps nothing,
keep the unfiltered list. -/
def filter_ways {K : Type} [LinearOrderedField K]
    (isochrone : List (K × K)) (ways : List (Way K)) :
    List (Way K) :=
  let filtered := ways.filter fun w =>
    w.coords.any fun p => point_in_polygon p.1 p.2 isochrone
  if filtered.isEmpty then ways else filtered

/-- `generate_random_wander` (lines 198-330) from the point where the street
data has been fetched: the empty-graph check (lines 246-247), the isochrone
filter (lines 250-259), the wander loop (lines 269-322) and the resampling
(line 327).  The isochrone and the fetched ways are inputs (the network I/O
that produces them is outside the sampler core). -/
def generate_random_wander {K : Type} [LinearOrderedField K] [FloorRing K]
    (dist hd : K × K → K × K → K) (rng : ℕ → ℕ)
    (fuel : ℕ) (start : K × K) (ways : List (Way K))
    (isochrone : Option (List (K × K))) (target interval : K) :
    Except String (List (RoutePoint K)) :=
  if ways.isEmpty then Except.error "No walkable streets found in this area"
  else
    let ways2 := match isochrone with
      | some poly => filter_ways poly ways
      | none => ways
    let final := wanderLoop dist rng ways2 target fuel (initState start)
    Except.ok (sample_route_points dist hd final.path interval)

end Sampler

noncomputable section RealGeometry

/-- `math.radians`. -/
noncomputable def radians (x : ℝ) : ℝ := x * Real.pi / 180

/-- `math.degrees`. -/
noncomputable def degrees (x : ℝ) : ℝ := x * 180 / Real.pi

/-- `math.atan2 y x`: the argument of the complex number `x + y*i`, in
`(-π, π]`. -/
noncomputable def atan2 (y x : ℝ) : ℝ := Complex.arg (Complex.mk x y)

/-- Python's float `%`: the remainder takes the sign of the divisor, so for a
positive modulus `m` the value is `x - m * ⌊x / m⌋ ∈ [0, m)`. -/
noncomputable def fmod (x m : ℝ) : ℝ := x - m * ⌊x / m⌋

/-- `haversine_distance` (lines 162-174). -/
noncomputable def haversine_distance (lat1 lng1 lat2 lng2 : ℝ) : ℝ :=
  let R : ℝ := 6371000
  let phi1 := radians lat1
  let phi2 := radians lat2
  let delta_phi := radians (lat2 - lat1)
  let delta_lambda := radians (lng2 - lng1)
  let a := Real.sin (delta_phi / 2) ^ 2 +
    Real.cos phi1 * Real.cos phi2 * Real.sin (delta_lambda / 2) ^ 2
  let c := 2 * atan2 (Real.sqrt a) (Real.sqrt (1 - a))
  R * c

/-- `calculate_heading` (lines 177-188). -/
noncomputable def calculate_heading (lat1 lng1 lat2 lng2 : ℝ) : ℝ :=
  let delta_lng := radians (lng2 - lng1)
  let lat1_rad := radians lat1
  let lat2_rad := radians lat2
  let x := Real.sin delta_lng * Real.cos lat2_rad
  let y := Real.cos lat1_rad * Real.sin lat2_rad -
    Real.sin lat1_rad * Real.cos lat2_rad * Real.cos delta_lng
  fmod (degrees (atan2 x y) + 360) 360

/-- `haversine_distance` on coordinate pairs, as the wander loop and the
resampler consume it. -/
noncomputable def haversineP (p q : ℝ × ℝ) : ℝ :=
  haversine_distance p.1 p.2 q.1 q.2

/-- `calculate_heading` on coordinate pairs. -/
noncomputable def headingP (p q : ℝ × ℝ) : ℝ :=
  calculate_heading p.1 p.2 q.1 q.2

end RealGeometry

/-! Concrete instances used to exercise the embedding on explicit inputs. -/

/-- A taxicab metric with integer values: a stand-in distance function for
concrete runs of the wander loop, which consumes distances only through
comparisons and sums. -/
def taxi {K : Type} [LinearOrderedCommRing K] (p q : K × K) : K :=
  (if p.1 ≤ q.1 then q.1 - p.1 else p.1 - q.1) +
  (if p.2 ≤ q.2 then q.2 - p.2 else p.2 - q.2)

/-- A constant heading function for concrete resampler runs. -/
def zeroHd {K : Type} [LinearOrderedCommRing K] (_ _ : K × K) : K := 0

/-- The single isolated 50 m street segment of the termination scenario:
one way with two vertices 50 m apart (in the `taxi` metric). -/
def isolatedWays : List (Way ℤ) := [⟨1, [(0, 0), (0, 50)], []⟩]

/-- Pseudo-random draws that always return 1: the walker then always picks
the second-closest candidate (the far end of the segment) and walks the
chosen way forward. -/
def bounceRng : ℕ → ℕ := fun _ => 1

/-- The wander loop run on the isolated 50 m segment with target 5000 m. -/
def isolatedFinal : WanderState ℤ :=
  wanderLoop taxi bounceRng isolatedWays 5000 60 (initState (0, 0))

/-- A square boundary polygon for exercising the isochrone filter. -/
def squarePoly : List (ℚ × ℚ) := [(0, 0), (0, 10), (10, 10), (10, 0)]

/-- A way whose vertices lie inside `squarePoly`. -/
def sqWayIn : Way ℚ := ⟨1, [(5, 5), (5, 6)], []⟩

/-- A way whose vertices lie outside `squarePoly`. -/
def sqWayOut : Way ℚ := ⟨2, [(20, 20), (21, 20)], []⟩

/-! ### Theorems -/

/-- Python's `x % m` for a positive float modulus `m` lands in `[0, m)`. -/
theorem fmod_mem_Ico (x m : ℝ) (hm : 0 < m) : fmod x m ∈ Set.Ico 0 m := by
  have hm' : m ≠ 0 := ne_of_gt hm
  have key : fmod x m = m * Int.fract (x / m) := by
    show x - m * ⌊x / m⌋ = m * (x / m - ⌊x / m⌋)
    rw [mul_sub, mul_div_cancel₀ _ hm']
  constructor
  · rw [key]
    exact mul_nonneg hm.le (Int.fract_nonneg _)
  · rw [key]
    calc m * Int.fract (x / m) < m * 1 :=
          (mul_lt_mul_left hm).mpr (Int.fract_lt_one _)
      _ = m := mul_one m

/-- Every point emitted inside one segment carries the heading of that
segment's endpoints. -/
theorem sampleSeg_heading {K : Type} [LinearOrderedField K] [FloorRing K]
    (hd : K × K → K × K → K) (I : K) (hI : 0 < I) (p1 p2 : K × K)
    (segStart segEnd L : K) (k : ℕ) :
    ∀ x ∈ (sampleSeg hd I hI p1 p2 segStart segEnd L k).1,
      x.2.heading = hd p1 p2 := by
  induction k using sampleSeg.induct hd I hI p1 p2 segStart segEnd L with
  | case1 k h ih =>
    rw [sampleSeg, dif_pos h]
    intro x hx
    rcases List.mem_append.mp hx with hx | hx
    · split at hx
      · rcases List.mem_singleton.mp hx with rfl
        rfl
      · cases hx
    · exact ih x hx
  | case2 k h =>
    rw [sampleSeg, dif_neg h]
    intro x hx
    cases hx

/-- Every point emitted by the resampling loop carries the heading of some
pair of consecutive polyline vertices. -/
theorem sampleRun_heading {K : Type} [LinearOrderedField K] [FloorRing K]
    (dist hd : K × K → K × K → K) (I : K) (hI : 0 < I) :
    ∀ (coords : List (K × K)) (acc : K) (k : ℕ),
      ∀ x ∈ sampleRun dist hd I hI coords acc k,
        ∃ a b, x.2.heading = hd a b := by
  intro coords acc k
  induction coords, acc, k using sampleRun.induct dist hd I hI with
  | case1 acc k => intro x hx; cases hx
  | case2 p acc k => intro x hx; cases hx
  | case3 p1 p2 rest acc k L hL ih =>
    rw [sampleRun, if_pos hL]
    exact ih
  | case4 p1 p2 rest acc k L hL out ih =>
    rw [sampleRun, if_neg hL]
    intro x hx
    rcases List.mem_append.mp hx with hx | hx
    · exact ⟨p1, p2, sampleSeg_heading hd I hI p1 p2 _ _ _ _ x hx⟩
    · exact ih x hx

/-- C8: `haversine_distance` is symmetric in its two points (exactly, in the
exact-arithmetic embedding over `ℝ`). -/
theorem haversine_distance_symm (lat1 lng1 lat2 lng2 : ℝ) :
    haversine_distance lat1 lng1 lat2 lng2
      = haversine_distance lat2 lng2 lat1 lng1 := by
  simp only [haversine_distance]
  have h1 : radians (lat1 - lat2) / 2 = -(radians (lat2 - lat1) / 2) := by
    simp only [radians]; ring
  have h2 : radians (lng1 - lng2) / 2 = -(radians (lng2 - lng1) / 2) := by
    simp only [radians]; ring
  rw [h1, h2, Real.sin_neg, Real.sin_neg]
  ring_nf

/-- C7: `calculate_heading` always lands in `[0, 360)` (the closing
`(heading + 360) % 360` guarantees it), and consequently the heading of
every `RoutePoint` the resampler produces from `calculate_heading` lies in
`[0, 360)`. -/
theorem heading_range :
    (∀ lat1 lng1 lat2 lng2 : ℝ,
      calculate_heading lat1 lng1 lat2 lng2 ∈ Set.Ico (0 : ℝ) 360) ∧
    ∀ (coords : List (ℝ × ℝ)) (I : ℝ),
      ∀ pt ∈ sample_route_points haversineP headingP coords I,
        pt.heading ∈ Set.Ico (0 : ℝ) 360 := by
  have h1 : ∀ lat1 lng1 lat2 lng2 : ℝ,
      calculate_heading lat1 lng1 lat2 lng2 ∈ Set.Ico (0 : ℝ) 360 := by
    intro lat1 lng1 lat2 lng2
    simp only [calculate_heading]
    exact fmod_mem_Ico _ _ (by norm_num)
  refine ⟨h1, ?_⟩
  intro coords I pt hpt
  simp only [sample_route_points] at hpt
  split at hpt
  · cases hpt
  · split at hpt
    · rcases List.mem_map.mp hpt with ⟨x, hx, rfl⟩
      rcases sampleRun_heading haversineP headingP I _ coords 0 0 x hx
        with ⟨a, b, hab⟩
      rw [hab]
      exact h1 a.1 a.2 b.1 b.2
    · cases hpt

/-- C3: with a boundary polygon present, a segment is retained iff one of
its vertices is classified inside by the ray-casting test; if the filter
would eliminate every segment the full set is kept; hence the filter never
turns a non-empty segment set into an empty one. -/
theorem boundary_filter_spec {K : Type} [LinearOrderedField K]
    (poly : List (K × K)) (ways : List (Way K)) :
    ((∃ w ∈ ways, w.coords.any fun p => point_in_polygon p.1 p.2 poly) →
      ∀ w', w' ∈ filter_ways poly ways ↔
        w' ∈ ways ∧ (w'.coords.any fun p => point_in_polygon p.1 p.2 poly)) ∧
    ((∀ w ∈ ways, ¬(w.coords.any fun p => point_in_polygon p.1 p.2 poly)) →
      filter_ways poly ways = ways) ∧
    (ways ≠ [] → filter_ways poly ways ≠ []) := by
  refine ⟨?_, ?_, ?_⟩
  · rintro ⟨w, hw, hin⟩ w'
    have hf : ways.filter (fun w =>
        w.coords.any fun p => point_in_polygon p.1 p.2 poly) ≠ [] := by
      intro h0
      exact (List.filter_eq_nil_iff.mp h0) w hw hin
    rw [filter_ways, if_neg (by simpa [List.isEmpty_iff] using hf)]
    exact List.mem_filter
  · intro hnone
    have hf : ways.filter (fun w =>
        w.coords.any fun p => point_in_polygon p.1 p.2 poly) = [] :=
      List.filter_eq_nil_iff.mpr hnone
    rw [filter_ways, if_pos (by simpa [List.isEmpty_iff] using hf)]
  · intro hne
    rw [filter_ways]
    split
    · exact hne
    · next h =>
      intro h0
      rw [h0] at h
      exact h rfl

/-- Witness for C3: inside `squarePoly`, `sqWayIn` is retained, a set of
only-outside ways is kept unchanged, and the filtered set is non-empty. -/
theorem boundary_filter_spec_witness :
    (sqWayIn ∈ filter_ways squarePoly [sqWayIn, sqWayOut]) ∧
    (filter_ways squarePoly [sqWayOut] = [sqWayOut]) ∧
    (filter_ways squarePoly [sqWayIn, sqWayOut] ≠ []) := by
  have hin : (sqWayIn.coords.any fun p =>
      point_in_polygon p.1 p.2 squarePoly) = true := by
    norm_num [sqWayIn, squarePoly, point_in_polygon, List.any]
  have hout : (sqWayOut.coords.any fun p =>
      point_in_polygon p.1 p.2 squarePoly) = false := by
    norm_num [sqWayOut, squarePoly, point_in_polygon, List.any]
  refine ⟨?_, ?_, ?_⟩
  · exact ((boundary_filter_spec squarePoly [sqWayIn, sqWayOut]).1
      ⟨sqWayIn, by simp, hin⟩ sqWayIn).mpr ⟨by simp, hin⟩
  · exact (boundary_filter_spec squarePoly [sqWayOut]).2.1
      (by intro w hw; rcases List.mem_singleton.mp hw with rfl; simp [hout])
  · exact (boundary_filter_spec squarePoly [sqWayIn, sqWayOut]).2.2 (by simp)

/-- C6: the pipeline fails (with the `ValueError` message of line 247) iff
the fetched street list is empty — before any wandering, and regardless of
the boundary, target, or random draws; and every way built by
`get_walkable_streets` has at least 2 resolved vertices. -/
theorem empty_graph_error_iff {K : Type} [LinearOrderedField K] [FloorRing K]
    (dist hd : K × K → K × K → K) (rng : ℕ → ℕ) (fuel : ℕ) (start : K × K)
    (ways : List (Way K)) (iso : Option (List (K × K))) (target interval : K)
    (elems : List (OsmElement K)) :
    (generate_random_wander dist hd rng fuel start ways iso target interval
        = Except.error "No walkable streets found in this area" ↔ ways = []) ∧
    ∀ w ∈ get_walkable_streets elems, 2 ≤ w.coords.length := by
  constructor
  · rw [generate_random_wander.eq_def]
    cases hE : ways.isEmpty with
    | true =>
      rw [if_pos rfl]
      simp [List.isEmpty_iff.mp hE]
    | false =>
      rw [if_neg (by simp)]
      constructor
      · intro h
        cases h
      · intro h
        rw [h] at hE
        cases hE
  · intro w hw
    rcases List.mem_filterMap.mp hw with ⟨e, _, hfe⟩
    cases e with
    | node i la ln => cases hfe
    | way i nids tags =>
      simp only at hfe
      split at hfe
      next hlen =>
        cases hfe
        simpa using hlen
      next => cases hfe

/-- Witness for C6: an empty fetched list produces exactly the error, and a
parsed way (two resolved nodes) has at least 2 vertices. -/
theorem empty_graph_error_iff_witness :
    (generate_random_wander (K := ℚ) taxi zeroHd (fun _ => 0) 5 (0, 0) []
        none 100 10 = Except.error "No walkable streets found in this area") ∧
    2 ≤ (Way.mk 7 [((0 : ℚ), 0), (0, 7)] []).coords.length := by
  constructor
  · exact (empty_graph_error_iff taxi zeroHd (fun _ => 0) 5 (0, 0) []
      none 100 10 []).1.mpr rfl
  · exact (empty_graph_error_iff (K := ℚ) taxi zeroHd (fun _ => 0) 5 (0, 0)
      [] none 100 10
      [OsmElement.node 1 0 0, OsmElement.node 2 0 7,
        OsmElement.way 7 [1, 2] []]).2
      ⟨7, [(0, 0), (0, 7)], []⟩ (by decide)

/-- C10: for a non-positive target the wander loop never runs (the state
stays the initial one, whose polyline is just the start point), and the
pipeline returns `ok []` rather than an error, for any non-empty graph. -/
theorem nonpositive_target_no_wander {K : Type} [LinearOrderedField K]
    [FloorRing K] (dist hd : K × K → K × K → K) (rng : ℕ → ℕ) (fuel : ℕ)
    (start : K × K) (ways : List (Way K)) (iso : Option (List (K × K)))
    (target interval : K) (htarget : target ≤ 0) (hways : ways ≠ []) :
    wanderLoop dist rng ways target fuel (initState start) = initState start ∧
    generate_random_wander dist hd rng fuel start ways iso target interval
      = Except.ok [] := by
  have hloop : ∀ (ways' : List (Way K)),
      wanderLoop dist rng ways' target fuel (initState start)
        = initState start := by
    intro ways'
    cases fuel with
    | zero => rfl
    | succ f =>
      rw [wanderLoop, if_neg]
      show ¬(0 : K) < target
      exact not_lt.mpr htarget
  refine ⟨hloop ways, ?_⟩
  rw [generate_random_wander.eq_def,
    if_neg (by simpa [List.isEmpty_iff] using hways)]
  cases iso with
  | none =>
    simp only [hloop]
    rw [sample_route_points, if_pos (by simp [initState])]
  | some poly =>
    simp only [hloop]
    rw [sample_route_points, if_pos (by simp [initState])]

/-- Witness for C10: a concrete non-positive-target run. -/
theorem nonpositive_target_no_wander_witness :
    wanderLoop (K := ℚ) taxi (fun _ => 0) [⟨3, [(0, 0), (0, 9)], []⟩] 0 4
        (initState (0, 0)) = initState (0, 0) ∧
    generate_random_wander (K := ℚ) taxi zeroHd (fun _ => 0) 4 (0, 0)
        [⟨3, [(0, 0), (0, 9)], []⟩] none 0 10 = Except.ok [] :=
  nonpositive_target_no_wander taxi zeroHd (fun _ => 0) 4 (0, 0)
    [⟨3, [(0, 0), (0, 9)], []⟩] none 0 10 le_rfl (by simp)

/-- Appending a point to a polyline adds the distance from its last point. -/
theorem pathSum_concat {K : Type} [LinearOrderedCommRing K]
    (dist : K × K → K × K → K) :
    ∀ (xs : List (K × K)) (a b : K × K), xs.getLast? = some a →
      pathSum dist (xs ++ [b]) = pathSum dist xs + dist a b := by
  intro xs
  induction xs with
  | nil => intro a b h; cases h
  | cons x t ih =>
    intro a b h
    cases t with
    | nil =>
      have hax : x = a := by simpa using h
      have e1 : pathSum dist ([x] ++ [b]) = dist x b + pathSum dist [b] := rfl
      have e2 : pathSum dist [b] = 0 := rfl
      have e3 : pathSum dist [x] = 0 := rfl
      rw [e1, e2, e3, hax]
      ring
    | cons y t' =>
      have h' : (y :: t').getLast? = some a := by
        rwa [List.getLast?_cons_cons] at h
      have e1 : pathSum dist ((x :: y :: t') ++ [b])
          = dist x y + pathSum dist ((y :: t') ++ [b]) := rfl
      have e2 : pathSum dist (x :: y :: t')
          = dist x y + pathSum dist (y :: t') := rfl
      rw [e1, e2, ih a b h']
      ring

/-- Through the inner segment walk: the current position is the last
polyline point and the accumulated distance is the polyline's pairwise sum.
-/
theorem stepPoints_distSum {K : Type} [LinearOrderedCommRing K]
    (dist : K × K → K × K → K) (target : K) :
    ∀ (seg path : List (K × K)) (total : K) (cur : K × K),
      path.getLast? = some cur → total = pathSum dist path →
      (stepPoints dist target seg path total cur).1.getLast?
          = some (stepPoints dist target seg path total cur).2.2 ∧
      (stepPoints dist target seg path total cur).2.1
          = pathSum dist (stepPoints dist target seg path total cur).1 := by
  intro seg
  induction seg with
  | nil => exact fun path total cur h1 h2 => ⟨h1, h2⟩
  | cons v rest ih =>
    intro path total cur h1 h2
    rw [stepPoints]
    by_cases hd5 : 5 < dist cur v
    · rw [if_pos hd5]
      have hsum : total + dist cur v = pathSum dist (path ++ [v]) := by
        rw [pathSum_concat dist path cur v h1, h2]
      by_cases hbrk : target ≤ total + dist cur v
      · rw [if_pos hbrk]
        exact ⟨List.getLast?_concat path, hsum⟩
      · rw [if_neg hbrk]
        exact ih (path ++ [v]) (total + dist cur v) v
          (List.getLast?_concat path) hsum
    · rw [if_neg hd5]
      by_cases hbrk : target ≤ total
      · rw [if_pos hbrk]
        exact ⟨h1, h2⟩
      · rw [if_neg hbrk]
        exact ih path total cur h1 h2

/-- One wander iteration preserves the last-point and distance-sum
invariants. -/
theorem wanderStep_distSum {K : Type} [LinearOrderedCommRing K]
    (dist : K × K → K × K → K) (rng : ℕ → ℕ) (ways : List (Way K))
    (target : K) (st st' : WanderState K)
    (h : wanderStep dist rng ways target st = some st')
    (h1 : st.path.getLast? = some st.cur)
    (h2 : st.total = pathSum dist st.path) :
    st'.path.getLast? = some st'.cur ∧ st'.total = pathSum dist st'.path := by
  rw [wanderStep] at h
  split at h
  · cases h
  · cases h
    exact stepPoints_distSum dist target _ st.path st.total st.cur h1 h2

/-- The whole wander loop preserves the last-point and distance-sum
invariants. -/
theorem wanderLoop_distSum {K : Type} [LinearOrderedCommRing K]
    (dist : K × K → K × K → K) (rng : ℕ → ℕ) (ways : List (Way K))
    (target : K) :
    ∀ (fuel : ℕ) (st : WanderState K),
      st.path.getLast? = some st.cur → st.total = pathSum dist st.path →
      (wanderLoop dist rng ways target fuel st).path.getLast?
          = some (wanderLoop dist rng ways target fuel st).cur ∧
      (wanderLoop dist rng ways target fuel st).total
          = pathSum dist (wanderLoop dist rng ways target fuel st).path := by
  intro fuel
  induction fuel with
  | zero => exact fun st h1 h2 => ⟨h1, h2⟩
  | succ f ih =>
    intro st h1 h2
    rw [wanderLoop]
    by_cases hg : st.total < target
    · rw [if_pos hg]
      rcases hstep : wanderStep dist rng ways target st with _ | st'
      · exact ⟨h1, h2⟩
      · rcases wanderStep_distSum dist rng ways target st st' hstep h1 h2
          with ⟨h1', h2'⟩
        exact ih st' h1' h2'
    · rw [if_neg hg]
      exact ⟨h1, h2⟩

/-- C9: at every point of a walker run (any fuel) and through every inner
segment walk, the accumulated `total_distance` equals the sum of the
distances between consecutive points of the polyline built so far — the
jump onto a newly chosen segment is appended and counted exactly like an
on-segment step. -/
theorem walker_total_eq_pathSum {K : Type} [LinearOrderedCommRing K]
    (dist : K × K → K × K → K) (rng : ℕ → ℕ) (ways : List (Way K))
    (target : K) :
    (∀ (fuel : ℕ) (start : K × K),
      (wanderLoop dist rng ways target fuel (initState start)).total
        = pathSum dist
            (wanderLoop dist rng ways target fuel (initState start)).path) ∧
    ∀ (seg path : List (K × K)) (total : K) (cur : K × K),
      path.getLast? = some cur → total = pathSum dist path →
      (stepPoints dist target seg path total cur).2.1
        = pathSum dist (stepPoints dist target seg path total cur).1 := by
  constructor
  · intro fuel start
    exact (wanderLoop_distSum dist rng ways target fuel (initState start)
      rfl rfl).2
  · intro seg path total cur h1 h2
    exact (stepPoints_distSum dist target seg path total cur h1 h2).2

/-- Witness for C9: a concrete inner walk keeps the accumulated distance
equal to the polyline's pairwise sum. -/
theorem walker_total_eq_pathSum_witness :
    (stepPoints (K := ℤ) taxi 1000 [(0, 7)] [(0, 0)] 0 (0, 0)).2.1
      = pathSum taxi
          (stepPoints (K := ℤ) taxi 1000 [(0, 7)] [(0, 0)] 0 (0, 0)).1 :=
  (walker_total_eq_pathSum taxi (fun _ => 0) [] 1000).2
    [(0, 7)] [(0, 0)] 0 (0, 0) (by decide) (by decide)

/-- Along a polyline whose consecutive points are more than 5 m apart, the
partial pairwise sums are non-decreasing step by step. -/
theorem pathSum_take_mono {K : Type} [LinearOrderedCommRing K]
    (dist : K × K → K × K → K) :
    ∀ (l : List (K × K)), List.Chain' (fun a b => 5 < dist a b) l →
      ∀ j, pathSum dist (l.take j) ≤ pathSum dist (l.take (j + 1)) := by
  intro l
  induction l with
  | nil => intro _ j; simp
  | cons x t ih =>
    intro hch j
    cases t with
    | nil =>
      cases j with
      | zero => simp [pathSum]
      | succ j' => simp
    | cons y t' =>
      have hxy := List.chain'_cons.mp hch
      cases j with
      | zero =>
        have e1 : pathSum dist ((x :: y :: t').take 1) = 0 := rfl
        simp [e1, pathSum]
      | succ j' =>
        cases j' with
        | zero =>
          have e1 : pathSum dist ((x :: y :: t').take 1) = 0 := rfl
          have e2 : pathSum dist ((x :: y :: t').take 2)
              = dist x y + pathSum dist [y] := rfl
          have e3 : pathSum dist [y] = 0 := rfl
          rw [e1, e2, e3]
          have h0 : (0 : K) < dist x y := lt_trans (by norm_num) hxy.1
          linarith
        | succ j'' =>
          simp only [List.take_succ_cons]
          have e3 : pathSum dist (x :: y :: t'.take j'')
              = dist x y + pathSum dist (y :: t'.take j'') := rfl
          have e4 : pathSum dist (x :: y :: t'.take (j'' + 1))
              = dist x y + pathSum dist (y :: t'.take (j'' + 1)) := rfl
          rw [e3, e4]
          have h5 := ih hxy.2 (j'' + 1)
          simp only [List.take_succ_cons] at h5
          exact add_le_add_left h5 _

/-- Full single-segment invariant for C4: through the inner walk the
polyline stays non-empty, ends at the current position, sums to the
accumulated distance, keeps all steps above 5 m, and keeps every proper
partial sum below the target. -/
theorem stepPoints_inv {K : Type} [LinearOrderedCommRing K]
    (dist : K × K → K × K → K) (target : K) :
    ∀ (seg path : List (K × K)) (total : K) (cur : K × K),
      path ≠ [] → path.getLast? = some cur → total = pathSum dist path →
      List.Chain' (fun a b => 5 < dist a b) path →
      (∀ j < path.length, pathSum dist (path.take j) < target) →
      total < target →
      (stepPoints dist target seg path total cur).1 ≠ [] ∧
      (stepPoints dist target seg path total cur).1.getLast?
          = some (stepPoints dist target seg path total cur).2.2 ∧
      (stepPoints dist target seg path total cur).2.1
          = pathSum dist (stepPoints dist target seg path total cur).1 ∧
      List.Chain' (fun a b => 5 < dist a b)
          (stepPoints dist target seg path total cur).1 ∧
      ∀ j < (stepPoints dist target seg path total cur).1.length,
        pathSum dist ((stepPoints dist target seg path total cur).1.take j)
          < target := by
  intro seg
  induction seg with
  | nil =>
    exact fun path total cur hne h1 h2 hch hpre _ => ⟨hne, h1, h2, hch, hpre⟩
  | cons v rest ih =>
    intro path total cur hne h1 h2 hch hpre htot
    rw [stepPoints]
    by_cases hd5 : 5 < dist cur v
    · rw [if_pos hd5]
      have hne' : path ++ [v] ≠ [] := by simp
      have h1' : (path ++ [v]).getLast? = some v := List.getLast?_concat path
      have h2' : total + dist cur v = pathSum dist (path ++ [v]) := by
        rw [pathSum_concat dist path cur v h1, h2]
      have hch' : List.Chain' (fun a b => 5 < dist a b) (path ++ [v]) := by
        refine List.chain'_append.mpr ⟨hch, List.chain'_singleton v, ?_⟩
        intro x hx y hy
        rw [h1] at hx
        cases hx
        cases hy
        exact hd5
      have hpre' : ∀ j < (path ++ [v]).length,
          pathSum dist ((path ++ [v]).take j) < target := by
        intro j hj
        rw [List.length_append, List.length_singleton] at hj
        rcases Nat.lt_succ_iff_lt_or_eq.mp hj with hj | hj
        · rw [List.take_append_of_le_length hj.le]
          exact hpre j hj
        · subst hj
          rw [List.take_left]
          exact h2 ▸ htot
      by_cases hbrk : target ≤ total + dist cur v
      · rw [if_pos hbrk]
        exact ⟨hne', h1', h2'.symm ▸ h2', hch', hpre'⟩
      · rw [if_neg hbrk]
        exact ih (path ++ [v]) (total + dist cur v) v hne' h1' h2' hch' hpre'
          (not_le.mp hbrk)
    · rw [if_neg hd5, if_neg (not_le.mpr htot)]
      exact ih path total cur hne h1 h2 hch hpre htot

/-- Full one-iteration invariant for C4. -/
theorem wanderStep_inv {K : Type} [LinearOrderedCommRing K]
    (dist : K × K → K × K → K) (rng : ℕ → ℕ) (ways : List (Way K))
    (target : K) (st st' : WanderState K)
    (h : wanderStep dist rng ways target st = some st')
    (hne : st.path ≠ []) (h1 : st.path.getLast? = some st.cur)
    (h2 : st.total = pathSum dist st.path)
    (hch : List.Chain' (fun a b => 5 < dist a b) st.path)
    (hpre : ∀ j < st.path.length, pathSum dist (st.path.take j) < target)
    (htot : st.total < target) :
    st'.path ≠ [] ∧ st'.path.getLast? = some st'.cur ∧
    st'.total = pathSum dist st'.path ∧
    List.Chain' (fun a b => 5 < dist a b) st'.path ∧
    ∀ j < st'.path.length, pathSum dist (st'.path.take j) < target := by
  rw [wanderStep] at h
  split at h
  · cases h
  · cases h
    exact stepPoints_inv dist target _ st.path st.total st.cur
      hne h1 h2 hch hpre htot

/-- Full whole-loop invariant for C4. -/
theorem wanderLoop_inv {K : Type} [LinearOrderedCommRing K]
    (dist : K × K → K × K → K) (rng : ℕ → ℕ) (ways : List (Way K))
    (target : K) :
    ∀ (fuel : ℕ) (st : WanderState K),
      st.path ≠ [] → st.path.getLast? = some st.cur →
      st.total = pathSum dist st.path →
      List.Chain' (fun a b => 5 < dist a b) st.path →
      (∀ j < st.path.length, pathSum dist (st.path.take j) < target) →
      (wanderLoop dist rng ways target fuel st).path ≠ [] ∧
      (wanderLoop dist rng ways target fuel st).path.getLast?
          = some (wanderLoop dist rng ways target fuel st).cur ∧
      (wanderLoop dist rng ways target fuel st).total
          = pathSum dist (wanderLoop dist rng ways target fuel st).path ∧
      List.Chain' (fun a b => 5 < dist a b)
          (wanderLoop dist rng ways target fuel st).path ∧
      ∀ j < (wanderLoop dist rng ways target fuel st).path.length,
        pathSum dist ((wanderLoop dist rng ways target fuel st).path.take j)
          < target := by
  intro fuel
  induction fuel with
  | zero => exact fun st hne h1 h2 hch hpre => ⟨hne, h1, h2, hch, hpre⟩
  | succ f ih =>
    intro st hne h1 h2 hch hpre
    rw [wanderLoop]
    by_cases hg : st.total < target
    · rw [if_pos hg]
      rcases hstep : wanderStep dist rng ways target st with _ | st'
      · exact ⟨hne, h1, h2, hch, hpre⟩
      · rcases wanderStep_inv dist rng ways target st st' hstep
          hne h1 h2 hch hpre hg with ⟨hne', h1', h2', hch', hpre'⟩
        exact ih st' hne' h1' h2' hch' hpre'
    · rw [if_neg hg]
      exact ⟨hne, h1, h2, hch, hpre⟩

/-- C4: for a positive target, along the final polyline of any walker run
every consecutive step is over 5 m (so the accumulated distance is
non-decreasing — indeed increasing — at every step), every proper partial
sum stays below the target (the walk stops appending the moment the target
is reached), the final total is the polyline's sum, and when the target was
reached the total exceeds it by less than the final step's length. -/
theorem walker_monotone_bounded {K : Type} [LinearOrderedCommRing K]
    (dist : K × K → K × K → K) (rng : ℕ → ℕ) (ways : List (Way K))
    (target : K) (fuel : ℕ) (start : K × K) (htarget : 0 < target) :
    ∀ st : WanderState K,
      st = wanderLoop dist rng ways target fuel (initState start) →
      List.Chain' (fun a b => 5 < dist a b) st.path ∧
      (∀ j, pathSum dist (st.path.take j)
        ≤ pathSum dist (st.path.take (j + 1))) ∧
      (∀ j < st.path.length, pathSum dist (st.path.take j) < target) ∧
      st.total = pathSum dist st.path ∧
      (target ≤ st.total → ∃ pre a b, st.path = pre ++ [a, b] ∧
        st.total < target + dist a b) := by
  intro st hst
  have hinit : ∀ j < (initState (K := K) start).path.length,
      pathSum dist ((initState (K := K) start).path.take j) < target := by
    intro j hj
    have hj1 : j = 0 := Nat.lt_one_iff.mp hj
    subst hj1
    simpa [initState, pathSum] using htarget
  have hinv := wanderLoop_inv dist rng ways target fuel (initState start)
    (by simp [initState]) rfl rfl (List.chain'_singleton start) hinit
  rw [← hst] at hinv
  rcases hinv with ⟨hne, h1, h2, hch, hpre⟩
  refine ⟨hch, pathSum_take_mono dist st.path hch, hpre, h2, ?_⟩
  intro hge
  rcases hrev : st.path.reverse with _ | ⟨b, tb⟩
  · exact absurd (by simpa using congrArg List.reverse hrev) hne
  rcases tb with _ | ⟨a, ta⟩
  · exfalso
    have hpath : st.path = [b] := by
      simpa using congrArg List.reverse hrev
    have : st.total = 0 := by rw [h2, hpath]; rfl
    rw [this] at hge
    exact absurd (lt_of_lt_of_le htarget hge) (lt_irrefl 0)
  have hpath : st.path = ta.reverse ++ [a, b] := by
    have := congrArg List.reverse hrev
    simpa [List.append_assoc] using this
  refine ⟨ta.reverse, a, b, hpath, ?_⟩
  have hmida : (ta.reverse ++ [a]).getLast? = some a := List.getLast?_concat _
  have hsum2 : pathSum dist st.path
      = pathSum dist (ta.reverse ++ [a]) + dist a b := by
    rw [hpath, show ta.reverse ++ [a, b] = (ta.reverse ++ [a]) ++ [b] by
      simp [List.append_assoc], pathSum_concat dist _ a b hmida]
  have htake : (ta.reverse ++ [a]) = st.path.take (ta.reverse.length + 1) := by
    rw [hpath, List.take_append_eq_append_take,
      List.take_of_length_le (by simp),
      show ta.reverse.length + 1 - ta.reverse.length = 1 by omega]
    rfl
  have hlt : pathSum dist (ta.reverse ++ [a]) < target := by
    rw [htake]
    exact hpre (ta.reverse.length + 1) (by
      rw [hpath]
      simp only [List.length_append, List.length_cons, List.length_nil]
      omega)
  rw [h2, hsum2]
  exact add_lt_add_right hlt _

/-- Witness for C4: a concrete positive-target walker run satisfies the
monotonicity and bounded-overshoot conclusions. -/
theorem walker_monotone_bounded_witness :
    List.Chain' (fun a b => 5 < taxi a b) isolatedFinal.path ∧
    (∀ j, pathSum taxi (isolatedFinal.path.take j)
      ≤ pathSum taxi (isolatedFinal.path.take (j + 1))) ∧
    (∀ j < isolatedFinal.path.length,
      pathSum taxi (isolatedFinal.path.take j) < 5000) ∧
    isolatedFinal.total = pathSum taxi isolatedFinal.path ∧
    (5000 ≤ isolatedFinal.total → ∃ pre a b,
      isolatedFinal.path = pre ++ [a, b] ∧
      isolatedFinal.total < 5000 + taxi a b) :=
  walker_monotone_bounded taxi bounceRng isolatedWays 5000 60 (0, 0)
    (by norm_num) isolatedFinal rfl

/-- A pointwise non-negative distance yields non-negative polyline sums. -/
theorem pathSum_nonneg {K : Type} [LinearOrderedCommRing K]
    (dist : K × K → K × K → K) (hd0 : ∀ p q, 0 ≤ dist p q) :
    ∀ l : List (K × K), 0 ≤ pathSum dist l := by
  intro l
  induction l with
  | nil => exact le_refl 0
  | cons x t ih =>
    cases t with
    | nil => exact le_refl 0
    | cons y t' =>
      have e : pathSum dist (x :: y :: t') = dist x y + pathSum dist (y :: t') :=
        rfl
      rw [e]
      exact add_nonneg (hd0 x y) ih

/-- The taxicab stand-in distance is non-negative. -/
theorem taxi_nonneg {K : Type} [LinearOrderedCommRing K] :
    ∀ p q : K × K, 0 ≤ taxi p q := by
  intro p q
  rw [taxi]
  split_ifs <;> linarith

/-- Marks emitted by one segment loop: all at least the entry counter, all
within the segment's end, strictly increasing, below the returned counter,
which itself is at least the entry counter. -/
theorem sampleSeg_marks {K : Type} [LinearOrderedField K] [FloorRing K]
    (hd : K × K → K × K → K) (I : K) (hI : 0 < I) (p1 p2 : K × K)
    (segStart segEnd L : K) (k : ℕ) :
    (∀ x ∈ (sampleSeg hd I hI p1 p2 segStart segEnd L k).1,
      k ≤ x.1 ∧ (x.1 : K) * I ≤ segEnd) ∧
    List.Chain' (fun a b => a.1 < b.1)
      (sampleSeg hd I hI p1 p2 segStart segEnd L k).1 ∧
    (∀ x ∈ (sampleSeg hd I hI p1 p2 segStart segEnd L k).1,
      x.1 < (sampleSeg hd I hI p1 p2 segStart segEnd L k).2) ∧
    k ≤ (sampleSeg hd I hI p1 p2 segStart segEnd L k).2 := by
  induction k using sampleSeg.induct hd I hI p1 p2 segStart segEnd L with
  | case1 k h ih =>
    rw [sampleSeg, dif_pos h]
    simp only []
    rcases ih with ⟨ihmem, ihch, ihlt, ihk⟩
    by_cases hs : segStart ≤ (k : K) * I
    · rw [if_pos hs]
      refine ⟨?_, ?_, ?_, ?_⟩
      · intro x hx
        rcases List.mem_cons.mp hx with rfl | hx
        · exact ⟨le_refl k, h⟩
        · exact ⟨Nat.le_of_succ_le (ihmem x hx).1, (ihmem x hx).2⟩
      · refine List.chain'_cons'.mpr ⟨?_, ihch⟩
        intro y hy
        have hmem := List.mem_of_mem_head? hy
        exact Nat.lt_of_succ_le (ihmem y hmem).1
      · intro x hx
        rcases List.mem_cons.mp hx with rfl | hx
        · exact Nat.lt_of_succ_le ihk
        · exact ihlt x hx
      · exact Nat.le_of_succ_le ihk
    · rw [if_neg hs]
      simp only [List.nil_append]
      exact ⟨fun x hx => ⟨Nat.le_of_succ_le (ihmem x hx).1, (ihmem x hx).2⟩,
        ihch, ihlt, Nat.le_of_succ_le ihk⟩
  | case2 k h =>
    rw [sampleSeg, dif_neg h]
    exact ⟨fun x hx => absurd hx (List.not_mem_nil x), List.chain'_nil,
      fun x hx => absurd hx (List.not_mem_nil x), le_refl k⟩

/-- Marks emitted along a whole polyline: at least the entry counter,
bounded by the distance already consumed plus the polyline's remaining
length, and strictly increasing. -/
theorem sampleRun_marks {K : Type} [LinearOrderedField K] [FloorRing K]
    (dist hd : K × K → K × K → K) (I : K) (hI : 0 < I)
    (hd0 : ∀ p q, 0 ≤ dist p q) :
    ∀ (coords : List (K × K)) (acc : K) (k : ℕ),
      (∀ x ∈ sampleRun dist hd I hI coords acc k,
        k ≤ x.1 ∧ (x.1 : K) * I ≤ acc + pathSum dist coords) ∧
      List.Chain' (fun a b => a.1 < b.1)
        (sampleRun dist hd I hI coords acc k) := by
  intro coords acc k
  induction coords, acc, k using sampleRun.induct dist hd I hI with
  | case1 acc k =>
    exact ⟨fun x hx => absurd hx (List.not_mem_nil x), List.chain'_nil⟩
  | case2 p acc k =>
    exact ⟨fun x hx => absurd hx (List.not_mem_nil x), List.chain'_nil⟩
  | case3 p1 p2 rest acc k L hL ih =>
    rw [sampleRun, if_pos hL]
    rcases ih with ⟨ihmem, ihch⟩
    refine ⟨?_, ihch⟩
    intro x hx
    rcases ihmem x hx with ⟨hk, hb⟩
    have e : pathSum dist (p1 :: p2 :: rest)
        = dist p1 p2 + pathSum dist (p2 :: rest) := rfl
    have h0 := hd0 p1 p2
    exact ⟨hk, by rw [e]; linarith⟩
  | case4 p1 p2 rest acc k L hL out ih =>
    rw [sampleRun, if_neg hL]
    rcases ih with ⟨ihmem, ihch⟩
    rcases sampleSeg_marks hd I hI p1 p2 acc (acc + dist p1 p2) (dist p1 p2) k
      with ⟨smem, sch, slt, sk⟩
    have e : pathSum dist (p1 :: p2 :: rest)
        = dist p1 p2 + pathSum dist (p2 :: rest) := rfl
    have hrest0 := pathSum_nonneg dist hd0 (p2 :: rest)
    refine ⟨?_, ?_⟩
    · intro x hx
      rcases List.mem_append.mp hx with hx | hx
      · rcases smem x hx with ⟨hk, hb⟩
        exact ⟨hk, by rw [e]; linarith⟩
      · rcases ihmem x hx with ⟨hk, hb⟩
        refine ⟨le_trans sk hk, ?_⟩
        rw [e]
        linarith
    · refine List.chain'_append.mpr ⟨sch, ihch, ?_⟩
      intro x hx y hy
      have hxmem := List.mem_of_mem_getLast? hx
      have hymem := List.mem_of_mem_head? hy
      exact Nat.lt_of_lt_of_le (slt x hxmem) (ihmem y hymem).1

/-- C5: for any interval `I > 0` (and the non-negative program metric) the
resampler's emitted points are strictly increasing in cumulative distance
along the polyline (mark `x.1 * I`), no emitted mark lies past the
polyline's total length, a polyline with fewer than 2 points yields the
empty sequence, and the emitted `RoutePoint`s are exactly the marked points
in order. -/
theorem resample_marks {K : Type} [LinearOrderedField K] [FloorRing K]
    (dist hd : K × K → K × K → K) (coords : List (K × K)) (I : K)
    (hI : 0 < I) (hd0 : ∀ p q, 0 ≤ dist p q) :
    (coords.length < 2 → sample_route_points dist hd coords I = []) ∧
    sample_route_points dist hd coords I
      = (sampleRun dist hd I hI coords 0 0).map Prod.snd ∧
    List.Chain' (fun a b => (a.1 : K) * I < (b.1 : K) * I)
      (sampleRun dist hd I hI coords 0 0) ∧
    ∀ x ∈ sampleRun dist hd I hI coords 0 0,
      (x.1 : K) * I ≤ pathSum dist coords := by
  rcases sampleRun_marks dist hd I hI hd0 coords 0 0 with ⟨hmem, hch⟩
  refine ⟨?_, ?_, ?_, ?_⟩
  · intro hlen
    rw [sample_route_points, if_pos hlen]
  · rw [sample_route_points]
    split
    · next hlen =>
      match coords, hlen with
      | [], _ => rfl
      | [p], _ => rfl
    · rfl
  · exact List.Chain'.imp
      (fun a b hab => by
        exact (mul_lt_mul_right hI).mpr (by exact_mod_cast hab)) hch
  · intro x hx
    have := (hmem x hx).2
    rwa [zero_add] at this

/-- Witness for C5: a concrete rational resampler run. -/
theorem resample_marks_witness :
    (([((0 : ℚ), 0), (0, 100)] : List (ℚ × ℚ)).length < 2 →
      sample_route_points taxi zeroHd [((0 : ℚ), 0), (0, 100)] 30 = []) ∧
    sample_route_points taxi zeroHd [((0 : ℚ), 0), (0, 100)] 30
      = (sampleRun taxi zeroHd 30 (by norm_num)
          [((0 : ℚ), 0), (0, 100)] 0 0).map Prod.snd ∧
    List.Chain' (fun a b => (a.1 : ℚ) * 30 < (b.1 : ℚ) * 30)
      (sampleRun taxi zeroHd 30 (by norm_num) [((0 : ℚ), 0), (0, 100)] 0 0) ∧
    ∀ x ∈ sampleRun taxi zeroHd 30 (by norm_num)
        [((0 : ℚ), 0), (0, 100)] 0 0,
      (x.1 : ℚ) * 30 ≤ pathSum taxi [((0 : ℚ), 0), (0, 100)] :=
  resample_marks taxi zeroHd [((0 : ℚ), 0), (0, 100)] 30 (by norm_num)
    taxi_nonneg

/-- Closed form of one segment loop when every mark clears the segment
start: the marks `k, k+1, …, ⌊segEnd/I⌋` are all emitted. -/
theorem sampleSeg_closed {K : Type} [LinearOrderedField K] [FloorRing K]
    (hd : K × K → K × K → K) (I : K) (hI : 0 < I) (p1 p2 : K × K)
    (segStart segEnd L : K) (hstart : segStart ≤ 0) (hend : 0 ≤ segEnd) :
    ∀ k, k ≤ ⌊segEnd / I⌋₊ + 1 →
      sampleSeg hd I hI p1 p2 segStart segEnd L k
        = ((List.range' k (⌊segEnd / I⌋₊ + 1 - k)).map (fun j =>
            (j, ⟨(interpolate_point p1.1 p1.2 p2.1 p2.2
                (((j : K) * I - segStart) / L)).1,
              (interpolate_point p1.1 p1.2 p2.1 p2.2
                (((j : K) * I - segStart) / L)).2, hd p1 p2⟩)),
          ⌊segEnd / I⌋₊ + 1) := by
  intro k
  induction k using sampleSeg.induct hd I hI p1 p2 segStart segEnd L with
  | case1 k h ih =>
    intro _
    have hkf : k ≤ ⌊segEnd / I⌋₊ :=
      Nat.le_floor ((le_div_iff₀ hI).mpr h)
    have hks : segStart ≤ (k : K) * I :=
      le_trans hstart (mul_nonneg (Nat.cast_nonneg k) hI.le)
    rw [sampleSeg, dif_pos h, ih (by omega), if_pos hks]
    have hrange : List.range' k (⌊segEnd / I⌋₊ + 1 - k)
        = k :: List.range' (k + 1) (⌊segEnd / I⌋₊ + 1 - (k + 1)) := by
      rw [show ⌊segEnd / I⌋₊ + 1 - k = (⌊segEnd / I⌋₊ + 1 - (k + 1)) + 1 by
        omega, List.range'_succ]
    rw [hrange, List.map_cons]
    rfl
  | case2 k h =>
    intro hk
    have hfk : ⌊segEnd / I⌋₊ + 1 ≤ k := by
      by_contra hcon
      have hk' : k ≤ ⌊segEnd / I⌋₊ := by omega
      have h1 : (k : K) ≤ segEnd / I :=
        (Nat.le_floor_iff (div_nonneg hend hI.le)).mp hk'
      exact h ((le_div_iff₀ hI).mp h1)
    have hkeq : k = ⌊segEnd / I⌋₊ + 1 := le_antisymm hk hfk
    rw [sampleSeg, dif_neg h, hkeq]
    simp

/-- A one-point polyline yields no samples. -/
theorem sampleRun_single {K : Type} [LinearOrderedField K] [FloorRing K]
    (dist hd : K × K → K × K → K) (I : K) (hI : 0 < I) (x : K × K)
    (acc : K) (k : ℕ) : sampleRun dist hd I hI [x] acc k = [] := rfl

/-- Closed form of the resampler on a two-point polyline of length at least
0.1: marks `0, I, 2I, …, ⌊L/I⌋·I` are emitted, linearly interpolated, all
with the segment's single heading — `⌊L/I⌋ + 1` points, consecutive ones
exactly `I` apart along the segment. -/
theorem resample_two_point_closed {K : Type} [LinearOrderedField K]
    [FloorRing K] (dist hd : K × K → K × K → K) (p q : K × K) (I : K)
    (hI : 0 < I) (hL : 1 / 10 ≤ dist p q) :
    sample_route_points dist hd [p, q] I
      = (List.range (⌊dist p q / I⌋₊ + 1)).map (fun j =>
          ⟨(interpolate_point p.1 p.2 q.1 q.2 ((j : K) * I / dist p q)).1,
            (interpolate_point p.1 p.2 q.1 q.2 ((j : K) * I / dist p q)).2,
            hd p q⟩) := by
  have hL0 : (0 : K) ≤ dist p q := le_trans (by norm_num) hL
  rw [sample_route_points, if_neg (by simp), dif_pos hI,
    sampleRun, if_neg (not_lt.mpr hL),
    sampleSeg_closed hd I hI p q 0 (0 + dist p q) (dist p q) le_rfl
      (by linarith) 0 (by omega)]
  simp only [sampleRun_single, zero_add, sub_zero, Nat.sub_zero,
    List.append_nil, List.map_map, ← List.range_eq_range']
  rfl

/-- `atan2` recovers an angle in `(-π, π]` from its sine and cosine. -/
theorem atan2_sin_cos (θ : ℝ) (h : θ ∈ Set.Ioc (-Real.pi) Real.pi) :
    atan2 (Real.sin θ) (Real.cos θ) = θ := by
  rw [atan2]
  have h1 : Complex.mk (Real.cos θ) (Real.sin θ)
      = (Real.cos θ : ℂ) + (Real.sin θ : ℂ) * Complex.I := by
    apply Complex.ext <;>
      simp only [Complex.add_re, Complex.add_im, Complex.ofReal_re,
        Complex.ofReal_im, Complex.mul_re, Complex.mul_im, Complex.I_re,
        Complex.I_im] <;> ring
  rw [h1, Complex.ofReal_cos, Complex.ofReal_sin,
    Complex.arg_cos_add_sin_mul_I h]

/-- `atan2` of a positive number over zero is `π/2` (due-east bearing). -/
theorem atan2_pos_zero (s : ℝ) (hs : 0 < s) : atan2 s 0 = Real.pi / 2 := by
  rw [atan2]
  have h1 : Complex.mk 0 s = (s : ℂ) * Complex.I := by
    apply Complex.ext <;>
      simp only [Complex.mul_re, Complex.mul_im, Complex.ofReal_re,
        Complex.ofReal_im, Complex.I_re, Complex.I_im] <;> ring
  rw [h1, Complex.arg_real_mul _ hs, Complex.arg_I]

/-- On the equator, the haversine distance for an eastward longitude
difference `d ∈ [0, 180]` degrees is exactly `R · d · π/180`. -/
theorem haversine_equator (d : ℝ) (h0 : 0 ≤ d) (h180 : d ≤ 180) :
    haversine_distance 0 0 0 d = 6371000 * (d * Real.pi / 180) := by
  have hπ := Real.pi_pos
  have hθ0 : 0 ≤ d * Real.pi / 180 / 2 := by positivity
  have hθπ : d * Real.pi / 180 / 2 ≤ Real.pi / 2 := by
    rw [div_le_div_iff₀ (by norm_num) (by norm_num)]
    nlinarith
  set θ := d * Real.pi / 180 / 2 with hθ
  have hsin : 0 ≤ Real.sin θ :=
    Real.sin_nonneg_of_nonneg_of_le_pi hθ0 (by linarith)
  have hcos : 0 ≤ Real.cos θ :=
    Real.cos_nonneg_of_mem_Icc ⟨by linarith, hθπ⟩
  simp only [haversine_distance, radians]
  rw [show (0 : ℝ) - 0 = 0 by ring, show (d : ℝ) - 0 = d by ring,
    show (0 : ℝ) * Real.pi / 180 = 0 by ring]
  rw [show (0 : ℝ) / 2 = 0 by norm_num, Real.sin_zero, Real.cos_zero]
  rw [show d * Real.pi / 180 / 2 = θ from rfl]
  rw [show (0 : ℝ) ^ 2 + 1 * 1 * Real.sin θ ^ 2 = Real.sin θ ^ 2 by ring]
  rw [show (1 : ℝ) - Real.sin θ ^ 2 = Real.cos θ ^ 2 by
    have := Real.sin_sq_add_cos_sq θ; linarith]
  rw [Real.sqrt_sq hsin, Real.sqrt_sq hcos]
  rw [atan2_sin_cos θ ⟨by linarith, by linarith⟩]
  rw [hθ]
  ring

/-- On the equator, the heading for a strictly eastward longitude
difference `d ∈ (0, 180)` degrees is exactly 90° (due east). -/
theorem heading_equator_east (d : ℝ) (h0 : 0 < d) (h180 : d < 180) :
    calculate_heading 0 0 0 d = 90 := by
  have hπ := Real.pi_pos
  have hδ0 : 0 < d * Real.pi / 180 := by positivity
  have hδπ : d * Real.pi / 180 < Real.pi := by
    rw [div_lt_iff₀ (by norm_num)]
    nlinarith
  simp only [calculate_heading, radians, degrees]
  rw [show (d : ℝ) - 0 = d by ring,
    show (0 : ℝ) * Real.pi / 180 = 0 by ring,
    Real.sin_zero, Real.cos_zero]
  rw [show Real.sin (d * Real.pi / 180) * 1 = Real.sin (d * Real.pi / 180)
      by ring,
    show (1 : ℝ) * 0 - 0 * 1 * Real.cos (d * Real.pi / 180) = 0 by ring]
  rw [atan2_pos_zero _ (Real.sin_pos_of_pos_of_lt_pi hδ0 hδπ)]
  rw [show Real.pi / 2 * 180 / Real.pi + 360 = 450 by
    field_simp
    ring]
  rw [fmod]
  rw [show ⌊(450 : ℝ) / 360⌋ = 1 by
    rw [Int.floor_eq_iff]
    norm_num]
  norm_num

/-- The example segment `(0,0)–(0,0.001)` is about 111 m long: between 100
and 150 m, so `⌊L/50⌋ = 2`. -/
theorem floor_example : ⌊haversineP ((0 : ℝ), 0) (0, 0.001) / 50⌋₊ = 2 := by
  have h1 := Real.pi_gt_three
  have h2 := Real.pi_lt_d2
  show ⌊haversine_distance 0 0 0 0.001 / 50⌋₊ = 2
  rw [haversine_equator 0.001 (by norm_num) (by norm_num),
    Nat.floor_eq_iff (by positivity)]
  constructor
  · push_cast
    nlinarith
  · push_cast
    nlinarith

/-- The degenerate segment `(0,0)–(0,1e-9)` is about 0.1 mm long: under the
0.1 m cutoff, and `⌊L/50⌋ = 0`. -/
theorem tiny_example_bounds :
    haversineP ((0 : ℝ), 0) (0, 0.000000001) < 1 / 10 ∧
    ⌊haversine_distance 0 0 0 0.000000001 / 50⌋₊ = 0 := by
  have he := haversine_equator 0.000000001 (by norm_num) (by norm_num)
  have h1 := Real.pi_pos
  have h2 := Real.pi_lt_d2
  constructor
  · show haversine_distance 0 0 0 0.000000001 < 1 / 10
    rw [he]
    nlinarith
  · rw [he, Nat.floor_eq_iff (by positivity)]
    constructor
    · push_cast
      positivity
    · push_cast
      nlinarith

/-- Full evaluation of the resampler on the example polyline
`[(0,0), (0,0.001)]` with a 50 m interval: three points at marks 0, 50,
100 m along the segment, each with heading 90° (due east). -/
theorem resample_example_eval :
    sample_route_points haversineP headingP [((0 : ℝ), 0), (0, 0.001)] 50
      = (List.range 3).map (fun j =>
          ⟨(interpolate_point (0 : ℝ) 0 0 0.001
              ((j : ℝ) * 50 / haversine_distance 0 0 0 0.001)).1,
            (interpolate_point (0 : ℝ) 0 0 0.001
              ((j : ℝ) * 50 / haversine_distance 0 0 0 0.001)).2, 90⟩) := by
  have hL : 1 / 10 ≤ haversineP ((0 : ℝ), 0) (0, 0.001) := by
    show 1 / 10 ≤ haversine_distance 0 0 0 0.001
    rw [haversine_equator 0.001 (by norm_num) (by norm_num)]
    nlinarith [Real.pi_gt_three]
  rw [resample_two_point_closed haversineP headingP ((0 : ℝ), 0) (0, 0.001)
    50 (by norm_num) hL, floor_example,
    show headingP ((0 : ℝ), 0) (0, 0.001) = 90 from
      heading_equator_east 0.001 (by norm_num) (by norm_num)]
  rfl

/-- C2 (amended): for every two-point polyline whose single segment is at
least the 0.1 m cutoff and every interval `I > 0`, the resampler emits
exactly `⌊L/I⌋ + 1` points at marks `0, I, 2I, …` (consecutive points
exactly `I` apart along the segment), all with the segment's single
heading; on the example polyline `[(0,0), (0,0.001)]` with `I = 50` this
gives 3 points at marks 0, 50, 100 m — with heading 90° (due east), not 0°.
-/
theorem resample_straight_segment :
    (∀ (K : Type) [LinearOrderedField K] [FloorRing K]
      (dist hd : K × K → K × K → K) (p q : K × K) (I : K),
      0 < I → 1 / 10 ≤ dist p q →
      sample_route_points dist hd [p, q] I
        = (List.range (⌊dist p q / I⌋₊ + 1)).map (fun j =>
            ⟨(interpolate_point p.1 p.2 q.1 q.2 ((j : K) * I / dist p q)).1,
              (interpolate_point p.1 p.2 q.1 q.2 ((j : K) * I / dist p q)).2,
              hd p q⟩)) ∧
    sample_route_points haversineP headingP [((0 : ℝ), 0), (0, 0.001)] 50
      = (List.range 3).map (fun j =>
          ⟨(interpolate_point (0 : ℝ) 0 0 0.001
              ((j : ℝ) * 50 / haversine_distance 0 0 0 0.001)).1,
            (interpolate_point (0 : ℝ) 0 0 0.001
              ((j : ℝ) * 50 / haversine_distance 0 0 0 0.001)).2, 90⟩) :=
  ⟨fun _ _ _ dist hd p q I hI hL =>
      resample_two_point_closed dist hd p q I hI hL,
    resample_example_eval⟩

/-- C2 counterexample: the claim fails as stated.  For the straight
polyline `[(0,0), (0,1e-9)]` (length ≈ 0.11 mm < the 0.1 m cutoff) with
`I = 50` the resampler emits 0 points, not `⌊L/I⌋ + 1 = 1`; and on the
spec's own example `[(0,0), (0,0.001)]` the emitted heading is 90° (due
east, the segment goes east along the equator), not ≈ 0° (north). -/
theorem resample_spec_example_fails :
    (sample_route_points haversineP headingP
        [((0 : ℝ), 0), (0, 0.000000001)] 50 = [] ∧
      ⌊haversine_distance 0 0 0 0.000000001 / 50⌋₊ + 1 = 1) ∧
    (sample_route_points haversineP headingP
        [((0 : ℝ), 0), (0, 0.001)] 50).head?.map RoutePoint.heading
      = some 90 ∧ (90 : ℝ) ≠ 0 := by
  refine ⟨⟨?_, ?_⟩, ?_, by norm_num⟩
  · rw [sample_route_points, if_neg (by simp), dif_pos (by norm_num),
      sampleRun, if_pos tiny_example_bounds.1]
    rfl
  · rw [tiny_example_bounds.2]
  · rw [resample_example_eval]
    rfl

/-- Witness for C2: the closed form instantiated on a concrete rational
two-point polyline. -/
theorem resample_straight_segment_witness :
    sample_route_points taxi zeroHd [((0 : ℚ), 0), (0, 100)] 30
      = (List.range (⌊taxi ((0 : ℚ), 0) (0, 100) / 30⌋₊ + 1)).map (fun j =>
          ⟨(interpolate_point (0 : ℚ) 0 0 100
              ((j : ℚ) * 30 / taxi ((0 : ℚ), 0) (0, 100))).1,
            (interpolate_point (0 : ℚ) 0 0 100
              ((j : ℚ) * 30 / taxi ((0 : ℚ), 0) (0, 100))).2,
            zeroHd ((0 : ℚ), 0) (0, 100)⟩) :=
  resample_straight_segment.1 ℚ taxi zeroHd ((0 : ℚ), 0) (0, 100) 30
    (by norm_num) (by norm_num [taxi])

/-- Witness for C7: the first emitted point of the example resampler run
has its heading (90°) inside `[0, 360)`. -/
theorem heading_range_witness :
    (⟨0, 0, 90⟩ : RoutePoint ℝ).heading ∈ Set.Ico (0 : ℝ) 360 :=
  heading_range.2 [((0 : ℝ), 0), (0, 0.001)] 50 ⟨0, 0, 90⟩ (by
    rw [resample_example_eval]
    refine List.mem_map.mpr ⟨0, by simp, ?_⟩
    norm_num [interpolate_point])

/-- A state that already reached the target is a fixed point of the loop. -/
theorem wanderLoop_stop {K : Type} [LinearOrderedCommRing K]
    (dist : K × K → K × K → K) (rng : ℕ → ℕ) (ways : List (Way K))
    (target : K) (st : WanderState K) (h : ¬st.total < target) :
    ∀ fuel, wanderLoop dist rng ways target fuel st = st := by
  intro fuel
  cases fuel with
  | zero => rfl
  | succ f => rw [wanderLoop, if_neg h]

/-- A state from which no candidate is found is a fixed point of the loop.
-/
theorem wanderLoop_none {K : Type} [LinearOrderedCommRing K]
    (dist : K × K → K × K → K) (rng : ℕ → ℕ) (ways : List (Way K))
    (target : K) (st : WanderState K)
    (h : wanderStep dist rng ways target st = none) :
    ∀ fuel, wanderLoop dist rng ways target fuel st = st := by
  intro fuel
  cases fuel with
  | zero => rfl
  | succ f =>
    rw [wanderLoop]
    by_cases hg : st.total < target
    · rw [if_pos hg, h]
    · rw [if_neg hg]

/-- Running with summed fuel is running twice. -/
theorem wanderLoop_add {K : Type} [LinearOrderedCommRing K]
    (dist : K × K → K × K → K) (rng : ℕ → ℕ) (ways : List (Way K))
    (target : K) :
    ∀ (f e : ℕ) (st : WanderState K),
      wanderLoop dist rng ways target (f + e) st
        = wanderLoop dist rng ways target e
            (wanderLoop dist rng ways target f st) := by
  intro f
  induction f with
  | zero =>
    intro e st
    rw [Nat.zero_add]
    rfl
  | succ f ih =>
    intro e st
    rw [show f + 1 + e = (f + e) + 1 by omega]
    by_cases hg : st.total < target
    · rw [wanderLoop, if_pos hg]
      conv_rhs => rw [wanderLoop, if_pos hg]
      rcases hstep : wanderStep dist rng ways target st with _ | st'
      · exact (wanderLoop_none dist rng ways target st hstep e).symm
      · exact ih e st'
    · rw [wanderLoop, if_neg hg]
      conv_rhs => rw [wanderLoop, if_neg hg]
      exact (wanderLoop_stop dist rng ways target st hg e).symm

/-- C1 counterexample: on a graph with a single isolated segment of length
50 (in the run's own metric) and target 5000, an explicit run of the wander
loop terminates by reaching the full 5000 — about a hundred times the
claimed ≈ 50 — because the 300 m relaxed tier readmits the visited segment
and the walk bounces back and forth along it. -/
theorem isolated_segment_run_reaches_target :
    taxi ((0 : ℤ), 0) (0, 50) = 50 ∧
    isolatedFinal.total = 5000 ∧
    ¬isolatedFinal.total ≤ 75 := by decide

/-- C1 (amended): the walker on the isolated 50 m segment terminates
without error, but not at ≈ 50 m: from any position on the segment the
relaxed 300 m tier always yields a candidate (the walker never takes the
no-candidates `break`), and the exhibited run keeps revisiting the segment
until the accumulated distance reaches the 5000 m target, where the loop
stops for any amount of extra fuel. -/
theorem isolated_segment_walker_revisits :
    (∀ (rng : ℕ → ℕ) (st : WanderState ℤ),
      st.cur = (0, 0) ∨ st.cur = (0, 50) →
      wanderStep taxi rng isolatedWays 5000 st ≠ none) ∧
    isolatedFinal.total = 5000 ∧
    ∀ extra, wanderLoop taxi bounceRng isolatedWays 5000 (60 + extra)
        (initState (0, 0)) = isolatedFinal := by
  refine ⟨?_, by decide, ?_⟩
  · intro rng st hcur h
    rw [wanderStep] at h
    split at h
    · next hc =>
      rw [wanderCandidates] at hc
      split at hc
      · rcases hcur with hcur | hcur <;> rw [hcur] at hc <;> exact
          absurd hc (by decide)
      · next htier => exact htier hc
    · cases h
  · intro extra
    rw [wanderLoop_add taxi bounceRng isolatedWays 5000 60 extra
      (initState (0, 0))]
    exact wanderLoop_stop taxi bounceRng isolatedWays 5000 isolatedFinal
      (by decide) extra

/-- Witness for C1 (amended): the no-dead-end property applied at the
initial state, and the stability of the finished run with one extra unit of
fuel. -/
theorem isolated_segment_walker_revisits_witness :
    wanderStep taxi bounceRng isolatedWays 5000 (initState ((0 : ℤ), 0))
      ≠ none ∧
    wanderLoop taxi bounceRng isolatedWays 5000 (60 + 1) (initState (0, 0))
      = isolatedFinal :=
  ⟨isolated_segment_walker_revisits.1 bounceRng (initState ((0 : ℤ), 0))
      (Or.inl rfl),
    isolated_segment_walker_revisits.2.2 1⟩

end NeighborhoodTour
